import Mathlib

/-!
Verification of the bitblock block-file decoder (`src/bitblock/cache` and
`src/bitblock/prototype`) against its natural-language specification.

The Python source is shallowly embedded: bytes are `Fin 256`, buffered
readers are a `Reader` structure carrying the underlying byte list and a
position, fallible operations return `Except PyErr`, and `sys.byteorder`
is made an explicit `Endian` parameter (fixed to `.little` for the
reference host, the general case being kept for the host-independence
claim).
-/

/-- A single byte, as produced by Python `bytes` indexing. -/
abbrev Byte := Fin 256

instance (n : Nat) : OfNat Byte n := ⟨Fin.ofNat n⟩

/-- Host byte order, the value of `sys.byteorder` in the source. -/
inductive Endian where
  | little
  | big
deriving DecidableEq

/-- Python exceptions raised by the decoder.  The two distinct
`ValueError` messages in the source are given separate constructors. -/
inductive PyErr where
  /-- `OverflowError("Provided x is larger than requested bit_sz")` in `pack`. -/
  | overflowError
  /-- `IndexError` from `x[_b]` when `pack` is given fewer bytes than the width needs. -/
  | indexError
  /-- `TypeError` (e.g. subtracting a bound method from an `int`). -/
  | typeError
  /-- `ValueError("Non-canonical value passed to varint.")` in `read_varint`. -/
  | nonCanonicalVarint
  /-- `ValueError("Incorrect magic number.")` in `get_all_file_blocks`. -/
  | incorrectMagic
  /-- `ValueError("Invalid bit_sz provided")` in `pack`. -/
  | invalidBitSz
  /-- Marker for exhausted loop fuel in the model of a `while` loop;
  the fuel supplied by the wrappers is always sufficient. -/
  | outOfFuel
deriving DecidableEq

/-- `set_endian` from `cache/_util.py` (and identically
`prototype/_util.py`): returns `b` unchanged when the HOST byte order
equals the requested one or `b` has at most one byte, otherwise the
reversed bytes. -/
def set_endianOn (host : Endian) (b : List Byte) (order : Endian) : List Byte :=
  if host = order ∨ b.length ≤ 1 then b else b.reverse

/-- Big-endian value of a byte list (most significant byte first). -/
def beVal : List Byte → Nat
  | [] => 0
  | b :: bs => b.val * 2 ^ (8 * bs.length) + beVal bs

/-- Little-endian value of a byte list (least significant byte first). -/
def leVal : List Byte → Nat
  | [] => 0
  | b :: bs => b.val + 256 * leVal bs

/-- The accumulation loop of `pack` (`cache/_util.py` lines 80-83) for a
full-width input: each byte is shifted by `8 * (len - index - 1)` and
or-ed into the value; the recursion or-s the head (shifted past all
remaining bytes) with the value of the tail, which is the same
accumulation in a different association order of `|`. -/
def packCore : List Byte → Nat
  | [] => 0
  | b :: bs => (b.val <<< (8 * bs.length)) ||| packCore bs

/-- `pack` from `cache/_util.py` (textually identical to `pack_bytes` in
`prototype/_util.py`), with `signed=False` as at every call site in the
decoders.  The source first normalises the byte order against the host
(`set_endian(x, 'big')`), returns `uint8(0)` for empty input, raises
`OverflowError` when given more bytes than the width holds, and raises
`IndexError` out of the loop (`x[_b]` at `_b == _x_sz`) when given fewer
bytes than the width needs; the final numpy constructor dispatch raises
`ValueError` for a width outside 8/16/32/64. -/
def packOn (host : Endian) (x : List Byte) (bitSz : Nat) : Except PyErr Nat :=
  let x := set_endianOn host x .big
  let byteSz := bitSz / 8
  if x.length = 0 then .ok 0
  else if byteSz < x.length then .error .overflowError
  else if x.length < byteSz then .error .indexError
  else if bitSz = 8 ∨ bitSz = 16 ∨ bitSz = 32 ∨ bitSz = 64 then .ok (packCore x)
  else .error .invalidBitSz

/-- `pack` on the reference (little-endian) host. -/
def pack (x : List Byte) (bitSz : Nat) : Except PyErr Nat :=
  packOn .little x bitSz

/-- Lowercase hex digit for a value below 16. -/
def hexDigit (n : Nat) : Char :=
  Char.ofNat (if n < 10 then 48 + n else 87 + n)

/-- Two lowercase hex digits of one byte. -/
def byteHex (b : Byte) : List Char :=
  [hexDigit (b.val / 16), hexDigit (b.val % 16)]

/-- Python `bytes.hex()`: lowercase hex of the bytes in order. -/
def bytesHex (bs : List Byte) : String :=
  ⟨(bs.map byteHex).flatten⟩

/-- A buffered reader over an in-memory byte string: `BufferedReader` /
`BytesIO` in the source.  `read n` returns up to `n` bytes from the
current position (fewer at end of data, like Python) and advances the
position by the number of bytes returned. -/
structure Reader where
  data : List Byte
  pos : Nat
deriving DecidableEq

/-- `read(n)`: the next `min n (length - pos)` bytes and the advanced reader. -/
def Reader.read (r : Reader) (n : Nat) : List Byte × Reader :=
  let t := (r.data.drop r.pos).take n
  (t, ⟨r.data, r.pos + t.length⟩)

/-- `seek(p, 0)`: reposition the reader. -/
def Reader.seek (r : Reader) (p : Nat) : Reader :=
  ⟨r.data, p⟩

/-- `read_uint8` from `cache/_util.py`. -/
def read_uint8 (block : Reader) : Except PyErr (Nat × Reader) :=
  let (x, block) := block.read 1
  (pack x 8).map (·, block)

/-- `read_uint16` from `cache/_util.py`. -/
def read_uint16 (block : Reader) : Except PyErr (Nat × Reader) :=
  let (x, block) := block.read 2
  (pack x 16).map (·, block)

/-- `read_uint32` from `cache/_util.py`. -/
def read_uint32 (block : Reader) : Except PyErr (Nat × Reader) :=
  let (x, block) := block.read 4
  (pack x 32).map (·, block)

/-- `read_uint64` from `cache/_util.py`. -/
def read_uint64 (block : Reader) : Except PyErr (Nat × Reader) :=
  let (x, block) := block.read 8
  (pack x 64).map (·, block)

/-- `read_hash256` from `cache/_util.py`:
`set_endian(block.read(32), 'big').hex()`. -/
def read_hash256 (block : Reader) : String × Reader :=
  let (x, block) := block.read 32
  (bytesHex (set_endianOn .little x .big), block)

/-- `read_varint` from `cache/_util.py` (the same branch structure as
`read_var_int` in `prototype/_util.py`): one discriminant byte, then a
2-, 4- or 8-byte little-endian value for discriminants `0xfd`, `0xfe`,
`0xff`, rejecting non-minimal encodings with
`ValueError("Non-canonical value passed to varint.")`. -/
def read_varint (block : Reader) : Except PyErr (Nat × Reader) := do
  let (b, block) := block.read 1
  let d ← pack b 8
  if d < 0xfd then
    return (d, block)
  else if d = 0xfd then
    let (b, block) := block.read 2
    let v ← pack b 16
    if v < 0xfd then throw .nonCanonicalVarint else return (v, block)
  else if d = 0xfe then
    let (b, block) := block.read 4
    let v ← pack b 32
    if v < 0x10000 then throw .nonCanonicalVarint else return (v, block)
  else
    let (b, block) := block.read 8
    let v ← pack b 64
    if v < 0x100000000 then throw .nonCanonicalVarint else return (v, block)

/-! ## SHA-256

`hashlib.sha256` is the chain's fixed digest function; the decoders only
ever call it through `sha256_2`.  The implementation below follows FIPS
180-4 over `Nat` words reduced modulo `2 ^ 32`. -/

/-- Truncation to a 32-bit word. -/
def w32 (x : Nat) : Nat := x % 4294967296

/-- Right rotation of a 32-bit word. -/
def rotr32 (x n : Nat) : Nat := w32 ((x >>> n) ||| (x <<< (32 - n)))

/-- FIPS 180-4 `Ch`. -/
def shaCh (x y z : Nat) : Nat := (x &&& y) ^^^ ((x ^^^ 0xffffffff) &&& z)

/-- FIPS 180-4 `Maj`. -/
def shaMaj (x y z : Nat) : Nat := (x &&& y) ^^^ (x &&& z) ^^^ (y &&& z)

/-- FIPS 180-4 `Σ0`. -/
def shaS0 (x : Nat) : Nat := rotr32 x 2 ^^^ rotr32 x 13 ^^^ rotr32 x 22

/-- FIPS 180-4 `Σ1`. -/
def shaS1 (x : Nat) : Nat := rotr32 x 6 ^^^ rotr32 x 11 ^^^ rotr32 x 25

/-- FIPS 180-4 `σ0`. -/
def shas0 (x : Nat) : Nat := rotr32 x 7 ^^^ rotr32 x 18 ^^^ (x >>> 3)

/-- FIPS 180-4 `σ1`. -/
def shas1 (x : Nat) : Nat := rotr32 x 17 ^^^ rotr32 x 19 ^^^ (x >>> 10)

/-- The 64 SHA-256 round constants. -/
def shaK : List Nat :=
  [1116352408, 1899447441, 3049323471, 3921009573, 961987163,
   1508970993, 2453635748, 2870763221, 3624381080, 310598401,
   607225278, 1426881987, 1925078388, 2162078206, 2614888103,
   3248222580, 3835390401, 4022224774, 264347078, 604807628,
   770255983, 1249150122, 1555081692, 1996064986, 2554220882,
   2821834349, 2952996808, 3210313671, 3336571891, 3584528711,
   113926993, 338241895, 666307205, 773529912, 1294757372,
   1396182291, 1695183700, 1986661051, 2177026350, 2456956037,
   2730485921, 2820302411, 3259730800, 3345764771, 3516065817,
   3600352804, 4094571909, 275423344, 430227734, 506948616,
   659060556, 883997877, 958139571, 1322822218, 1537002063,
   1747873779, 1955562222, 2024104815, 2227730452, 2361852424,
   2428436474, 2756734187, 3204031479, 3329325298]

/-- The SHA-256 initial hash state. -/
def shaH0 : List Nat :=
  [1779033703, 3144134277, 1013904242, 2773480762,
   1359893119, 2600822924, 528734635, 1541459225]

/-- Big-endian bytes of `n`, `k` bytes wide. -/
def beBytes : Nat → Nat → List Byte
  | 0, _ => []
  | k + 1, n => beBytes k (n / 256) ++ [Fin.ofNat n]

/-- FIPS 180-4 message padding: append `0x80`, zero bytes to 56 mod 64,
then the bit length as a 64-bit big-endian integer. -/
def shaPad (msg : List Byte) : List Byte :=
  msg ++ [(0x80 : Byte)] ++ List.replicate ((64 - (msg.length + 9) % 64) % 64) (0 : Byte)
    ++ beBytes 8 (8 * msg.length)

/-- Split a list into chunks of `n` (the padded message into 64-byte
blocks).  The fuel bounds the number of chunks; the wrapper supplies the
list length, which is always enough for a positive `n`. -/
def chunksAux (n : Nat) : Nat → List α → List (List α)
  | 0, _ => []
  | _, [] => []
  | fuel + 1, l => l.take n :: chunksAux n fuel (l.drop n)

/-- Split a list into chunks of `n`. -/
def chunks (n : Nat) (l : List α) : List (List α) :=
  chunksAux n l.length l

/-- Group four bytes big-endian into one 32-bit word each. -/
def beWords : List Byte → List Nat
  | b0 :: b1 :: b2 :: b3 :: rest =>
      (((b0.val * 256 + b1.val) * 256 + b2.val) * 256 + b3.val) :: beWords rest
  | _ => []

/-- Extend the 16-word block to the 64-word message schedule;
`k` counts the remaining extension steps (48 from the start). -/
def shaExtend : Nat → List Nat → List Nat
  | 0, ws => ws
  | k + 1, ws =>
      let t := ws.length
      shaExtend k (ws ++ [w32 (shas1 (ws.getD (t - 2) 0) + ws.getD (t - 7) 0
        + shas0 (ws.getD (t - 15) 0) + ws.getD (t - 16) 0)])

/-- One round of the SHA-256 compression loop over the working state. -/
def shaRound (ws : List Nat) (t : Nat) : List Nat → List Nat
  | [a, b, c, d, e, f, g, h] =>
      let t1 := w32 (h + shaS1 e + shaCh e f g + shaK.getD t 0 + ws.getD t 0)
      let t2 := w32 (shaS0 a + shaMaj a b c)
      [w32 (t1 + t2), a, b, c, w32 (d + t1), e, f, g]
  | s => s

/-- The 64 compression rounds, `t` counting up from 0. -/
def shaRounds (ws : List Nat) : Nat → List Nat → List Nat
  | 0, s => s
  | k + 1, s => shaRounds ws k (shaRound ws (64 - (k + 1)) s)

/-- Compress one 64-byte block into the chaining state. -/
def shaCompress (state : List Nat) (block : List Byte) : List Nat :=
  let ws := shaExtend 48 (beWords block)
  let out := shaRounds ws 64 state
  (state.zip out).map fun p => w32 (p.1 + p.2)

/-- `hashlib.sha256(x).digest()`: the 32 digest bytes. -/
def sha256 (msg : List Byte) : List Byte :=
  (((chunks 64 (shaPad msg)).foldl shaCompress shaH0).map (beBytes 4)).flatten

/-- `sha256_2` from `cache/_util.py` (identical in `prototype/_util.py`):
`set_endian(sha256(set_endian(sha256(x).digest(), 'big')).digest(), 'big')`.
Note the inner `set_endian`: on a little-endian host the first digest is
byte-reversed before the second hash is applied. -/
def sha256_2On (host : Endian) (x : List Byte) : List Byte :=
  set_endianOn host (sha256 (set_endianOn host (sha256 x) .big)) .big

/-- `sha256_2` on the reference (little-endian) host. -/
def sha256_2 (x : List Byte) : List Byte :=
  sha256_2On .little x

/-- The identifier the claim specifies: `reverse(sha256(sha256 h))`
rendered as lowercase hex (display form of the consensus double hash). -/
def claimedIdentifier (h : List Byte) : String :=
  bytesHex (sha256 (sha256 h)).reverse

/-- The 80 bytes of the Bitcoin mainnet genesis block header, in wire
order: version 1, all-zero previous block, the well-known merkle root,
time `0x495fab29`, bits `0x1d00ffff`, nonce `0x7c2bac1d`. -/
def genesisHeader : List Byte :=
  [0x01, 0x00, 0x00, 0x00, 0x00, 0x00, 0x00, 0x00, 0x00, 0x00,
   0x00, 0x00, 0x00, 0x00, 0x00, 0x00, 0x00, 0x00, 0x00, 0x00,
   0x00, 0x00, 0x00, 0x00, 0x00, 0x00, 0x00, 0x00, 0x00, 0x00,
   0x00, 0x00, 0x00, 0x00, 0x00, 0x00, 0x3b, 0xa3, 0xed, 0xfd,
   0x7a, 0x7b, 0x12, 0xb2, 0x7a, 0xc7, 0x2c, 0x3e, 0x67, 0x76,
   0x8f, 0x61, 0x7f, 0xc8, 0x1b, 0xc3, 0x88, 0x8a, 0x51, 0x32,
   0x3a, 0x9f, 0xb8, 0xaa, 0x4b, 0x1e, 0x5e, 0x4a, 0x29, 0xab,
   0x5f, 0x49, 0xff, 0xff, 0x00, 0x1d, 0x1d, 0xac, 0x2b, 0x7c]

/-! ## Transaction decoding (`cache/parse.py`) -/

/-- The chunked script-read loop shared by `TransactionInput.__init__`
and `TransactionOutput.__init__` (`cache/parse.py` lines 176-188 and
203-215): while the remaining declared size is at least `0xffffffff`,
read a `0xffffffff`-byte chunk and subtract; otherwise read exactly the
remaining size and stop.  Each chunk is hexed through
`set_endian(..., 'big')` and inserted at the front of the accumulator
(`insert(0, ...)`).  The fuel bounds the loop; `sz / 0xffffffff + 1`
iterations always suffice. -/
def readChunksAux : Nat → Reader → Nat → List String → List String × Reader
  | 0, block, _, acc => (acc, block)
  | fuel + 1, block, sz, acc =>
    if sz = 0 then (acc, block)
    else if 0xffffffff ≤ sz then
      let (c, block) := block.read 0xffffffff
      readChunksAux fuel block (sz - 0xffffffff)
        (bytesHex (set_endianOn .little c .big) :: acc)
    else
      let (c, block) := block.read sz
      (bytesHex (set_endianOn .little c .big) :: acc, block)

/-- The chunk loop started on an empty accumulator. -/
def readScriptChunks (block : Reader) (sz : Nat) : List String × Reader :=
  readChunksAux (sz / 0xffffffff + 1) block sz []

/-- The fields stored by `TransactionInput.__init__`. -/
structure TransactionInput where
  hash : String
  n : Nat
  script_size : Nat
  sig_script : String
  sequence : Nat
deriving DecidableEq

/-- `TransactionInput.__init__` from `cache/parse.py`: 32-byte previous
transaction hash (display order), 4-byte index, script-size varint, the
chunked script read, 4-byte sequence. -/
def TransactionInput.decode (buffer : Reader) :
    Except PyErr (TransactionInput × Reader) := do
  let (h, buffer) := read_hash256 buffer
  let (nv, buffer) ← read_uint32 buffer
  let (scriptSize, buffer) ← read_varint buffer
  let (chunkList, buffer) := readScriptChunks buffer scriptSize
  let (seq, buffer) ← read_uint32 buffer
  return ({ hash := h, n := nv, script_size := scriptSize,
            sig_script := String.join chunkList, sequence := seq }, buffer)

/-- The fields stored by `TransactionOutput.__init__`. -/
structure TransactionOutput where
  value : Nat
  script_size : Nat
  pk_script : String
deriving DecidableEq

/-- `TransactionOutput.__init__` from `cache/parse.py`: 8-byte value,
script-size varint, the same chunked script read. -/
def TransactionOutput.decode (buffer : Reader) :
    Except PyErr (TransactionOutput × Reader) := do
  let (v, buffer) ← read_uint64 buffer
  let (scriptSize, buffer) ← read_varint buffer
  let (chunkList, buffer) := readScriptChunks buffer scriptSize
  return ({ value := v, script_size := scriptSize,
            pk_script := String.join chunkList }, buffer)

/-- `for _i in range(n): xs.append(dec(buffer))`: decode `n` items in
sequence. -/
def decodeN (dec : Reader → Except PyErr (α × Reader)) :
    Nat → Reader → Except PyErr (List α × Reader)
  | 0, buffer => .ok ([], buffer)
  | k + 1, buffer => do
    let (x, buffer) ← dec buffer
    let (xs, buffer) ← decodeN dec k buffer
    return (x :: xs, buffer)

/-- The inner witness loop of `Transaction.__init__` (lines 142-144):
read `_num_op` length-prefixed operations and discard their bytes. -/
def readWitnessOps : Nat → Reader → Except PyErr Reader
  | 0, buffer => .ok buffer
  | k + 1, buffer => do
    let (op, buffer) ← read_varint buffer
    let (_, buffer) := buffer.read op
    readWitnessOps k buffer

/-- The outer witness loop of `Transaction.__init__` (lines 140-144):
one stack per input. -/
def readWitnessStacks : Nat → Reader → Except PyErr Reader
  | 0, buffer => .ok buffer
  | k + 1, buffer => do
    let (numOp, buffer) ← read_varint buffer
    let buffer ← readWitnessOps numOp buffer
    readWitnessStacks k buffer

/-- The fields stored by `Transaction.__init__` in `cache/parse.py`. -/
structure Transaction where
  start_position : Nat
  version : Nat
  is_segwit : Bool
  input_count : Nat
  inputs : List TransactionInput
  output_count : Nat
  outputs : List TransactionOutput
  lock_time : Nat
  hash : String
deriving DecidableEq

/-- `Transaction.__init__` from `cache/parse.py`.  The source line
`_inputs_position: int = buffer.tell` is missing the call parentheses,
so the variable holds the bound method object instead of an offset; in
the segwit branch, `buffer.read(_segwit_position - _inputs_position)`
then subtracts that method from an `int` and raises `TypeError` (after
`buffer.read(4)` has fetched the version bytes).  The non-segwit branch
re-reads the transaction's full byte range and hashes it. -/
def Transaction.decode (buffer : Reader) : Except PyErr (Transaction × Reader) := do
  let startPosition := buffer.pos
  let (version, buffer) ← read_uint32 buffer
  let returnPosition := buffer.pos
  let (marker, buffer) ← read_uint8 buffer
  let (flag, buffer) ← read_uint8 buffer
  let (isSegwit, buffer) :=
    if marker ≠ 0 ∨ flag ≠ 1 then (false, buffer.seek returnPosition)
    else (true, buffer)
  let (inputCount, buffer) ← read_varint buffer
  let (inputs, buffer) ← decodeN TransactionInput.decode inputCount buffer
  let (outputCount, buffer) ← read_varint buffer
  let (outputs, buffer) ← decodeN TransactionOutput.decode outputCount buffer
  let _segwitPosition := buffer.pos
  let buffer ← if isSegwit then readWitnessStacks inputCount buffer else pure buffer
  let (rawLockTime, buffer) := buffer.read 4
  let lockTime ← pack rawLockTime 32
  let returnPosition2 := buffer.pos
  let buffer := buffer.seek startPosition
  if isSegwit then
    throw .typeError
  else
    let (rawBytes, buffer) := buffer.read (returnPosition2 - startPosition)
    let buffer := buffer.seek returnPosition2
    return ({ start_position := startPosition, version, is_segwit := isSegwit,
              input_count := inputCount, inputs, output_count := outputCount,
              outputs, lock_time := lockTime,
              hash := bytesHex (sha256_2 rawBytes) }, buffer)

/-- The fields stored by `Block.__init__` in `cache/parse.py`. -/
structure Block where
  version : Nat
  previous_block : String
  merkle_root : String
  time : Nat
  bits : Nat
  nonce : Nat
  hash : String
  transaction_count : Nat
  transactions : List Transaction
deriving DecidableEq

/-- `Block.__init__` from `cache/parse.py`: the six header fields, a
seek back to 0 to hash the raw 80 header bytes, the transaction-count
varint, then that many transactions. -/
def Block.decode (raw_block : List Byte) : Except PyErr Block := do
  let reader : Reader := ⟨raw_block, 0⟩
  let (version, reader) ← read_uint32 reader
  let (previousBlock, reader) := read_hash256 reader
  let (merkleRoot, reader) := read_hash256 reader
  let (time, reader) ← read_uint32 reader
  let (bits, reader) ← read_uint32 reader
  let (nonce, reader) ← read_uint32 reader
  let reader := reader.seek 0
  let (hdr, reader) := reader.read 80
  let hash := bytesHex (sha256_2 hdr)
  let (transactionCount, reader) ← read_varint reader
  let (transactions, _) ← decodeN Transaction.decode transactionCount reader
  return { version, previous_block := previousBlock, merkle_root := merkleRoot,
           time, bits, nonce, hash, transaction_count := transactionCount,
           transactions }

/-! ## File indexing and lookup (`cache/parse.py` `BlockDataReader`) -/

/-- One entry of `BlockDataReader.index`.  The Python dict keys are
`hash`, `start`, `end` and `size`; `end` is a reserved word in Lean, so
that key is named `stop` here. -/
structure IndexEntry where
  hash : String
  start : Nat
  stop : Nat
  size : Nat
deriving DecidableEq

/-- The `while` loop of `BlockDataReader._index_block_data`: read and
discard 4 bytes, read the 4-byte block size, hash the next 80 bytes,
seek back and skip the declared size, and append an entry; repeat while
the position is below the file size.  The fuel bounds the iterations;
the wrapper passes one unit per file byte plus one, which always
suffices because every iteration advances the position. -/
def indexLoop : Nat → Reader → Nat → List IndexEntry → Except PyErr (List IndexEntry)
  | 0, _, _, _ => .error .outOfFuel
  | fuel + 1, reader, fileSize, acc =>
    if reader.pos < fileSize then do
      let (_, reader) ← read_uint32 reader
      let (blockSize, reader) ← read_uint32 reader
      let blockStart := reader.pos
      let (hdr, reader) := reader.read 80
      let blockHash := bytesHex (sha256_2 hdr)
      let reader := reader.seek blockStart
      let (_, reader) := reader.read blockSize
      let blockEnd := reader.pos
      indexLoop fuel reader fileSize
        (acc ++ [⟨blockHash, blockStart, blockEnd, blockSize⟩])
    else .ok acc

/-- `BlockDataReader._index_block_data` run over a whole file. -/
def index_block_data (data : List Byte) : Except PyErr (List IndexEntry) :=
  indexLoop (data.length + 1) ⟨data, 0⟩ data.length []

/-- The `enumerate` search of `BlockDataReader.get_block_index_by_hash`,
carrying the running position. -/
def findHashAux : Nat → List IndexEntry → String → Int
  | _, [], _ => -1
  | i, e :: rest, hash => if hash = e.hash then (i : Int) else findHashAux (i + 1) rest hash

/-- `BlockDataReader.get_block_index_by_hash`: the position of the first
entry with the given hash, or `-1` when no entry matches. -/
def get_block_index_by_hash (index : List IndexEntry) (hash : String) : Int :=
  findHashAux 0 index hash

/-- Python list subscription with an `int` index: negative indices count
from the end; out-of-range raises `IndexError`. -/
def pyIndex (l : List IndexEntry) (i : Int) : Except PyErr IndexEntry :=
  let j : Int := if i < 0 then i + l.length else i
  if 0 ≤ j then
    match l[j.toNat]? with
    | some e => .ok e
    | none => .error .indexError
  else .error .indexError

/-- `BlockDataReader.get_block_by_index`: fetch the entry at the given
(Python) index, seek to its start, read its size, decode a `Block`. -/
def get_block_by_index (data : List Byte) (index : List IndexEntry) (i : Int) :
    Except PyErr Block := do
  let entry ← pyIndex index i
  let reader := Reader.seek ⟨data, 0⟩ entry.start
  let (raw, _) := reader.read entry.size
  Block.decode raw

/-- `BlockDataReader.get_block_by_hash`: look the hash up, then fetch by
the resulting index. -/
def get_block_by_hash (data : List Byte) (index : List IndexEntry) (hash : String) :
    Except PyErr Block :=
  get_block_by_index data index (get_block_index_by_hash index hash)

/-! ## The frame scanner (`cache/__init__.py` `BlockReader`) -/

/-- `BLOCK_MAGIC_NUMBER = uint32(0xd9b4bef9)` from `cache/__init__.py`. -/
def BLOCK_MAGIC_NUMBER : Nat := 0xd9b4bef9

/-- The fields read by `BtcBlock.__init__` in `cache/__init__.py` before
it fails. -/
structure BtcBlock where
  block_sz : Nat
  version : Nat
  prev_block : String
  merkle_root : String
  time : Nat
  bits : Nat
  nonce : Nat
  hash : String
  tx_sz : Nat
deriving DecidableEq

/-- `BtcBlock.__init__` from `cache/__init__.py`.  It reads the size
prefix, the header fields, the 80 bytes from the slice start (which here
cover the size prefix and only 76 header bytes), and the
transaction-count varint; then `for _i in self.tx_sz:` iterates a numpy
`uint32` scalar, which is not iterable, so the constructor raises
`TypeError` on every block that decodes that far. -/
def BtcBlock.decode (raw_block : List Byte) : Except PyErr BtcBlock := do
  let reader : Reader := ⟨raw_block, 0⟩
  let startPos := reader.pos
  let (_blockSz, reader) ← read_uint32 reader
  let (_version, reader) ← read_uint32 reader
  let (p, reader) := reader.read 32
  let _prevBlock := bytesHex (set_endianOn .little p .big)
  let (m, reader) := reader.read 32
  let _merkleRoot := bytesHex (set_endianOn .little m .big)
  let (_time, reader) ← read_uint32 reader
  let (_bits, reader) ← read_uint32 reader
  let (_nonce, reader) ← read_uint32 reader
  let reader := reader.seek startPos
  let (hdr, reader) := reader.read 80
  let _hash := bytesHex (sha256_2 hdr)
  let (_txSz, _) ← read_varint reader
  throw .typeError

/-- The `while` loop of `BlockReader.get_all_file_blocks`
(`cache/__init__.py` lines 241-252): read the 4-byte magic and raise
`ValueError("Incorrect magic number.")` unless it equals
`BLOCK_MAGIC_NUMBER`; then record the position, read the 4-byte block
size, seek back, slice that many bytes (the slice therefore starts at the
size field) and construct a `BtcBlock` from the slice.  The result pairs
the blocks appended to `self._blocks` so far with the exception, if any,
that ended the loop (`none` is normal end-of-file exit).  The fuel
bounds the iterations; one unit per file byte plus one suffices. -/
def scanLoop : Nat → Reader → Nat → List BtcBlock → List BtcBlock × Option PyErr
  | 0, _, _, blocks => (blocks, some .outOfFuel)
  | fuel + 1, reader, fileSz, blocks =>
    if reader.pos < fileSz then
      match read_uint32 reader with
      | .error e => (blocks, some e)
      | .ok (magic, reader) =>
        if magic ≠ BLOCK_MAGIC_NUMBER then (blocks, some .incorrectMagic)
        else
          let blockStart := reader.pos
          match read_uint32 reader with
          | .error e => (blocks, some e)
          | .ok (blockSz, reader) =>
            let reader := reader.seek blockStart
            let (raw, reader) := reader.read blockSz
            match BtcBlock.decode raw with
            | .error e => (blocks, some e)
            | .ok b => scanLoop fuel reader fileSz (blocks ++ [b])
    else (blocks, none)

/-- `BlockReader.get_all_file_blocks` run over a whole file. -/
def get_all_file_blocks (data : List Byte) : List BtcBlock × Option PyErr :=
  scanLoop (data.length + 1) ⟨data, 0⟩ data.length []


/-! ## Arithmetic facts about `pack` -/

/-- Shorthand for the width step `2 ^ (8 * (k + 1)) = 2 ^ (8 * k) * 256`. -/
theorem pow_step (k : Nat) : (2 : Nat) ^ (8 * (k + 1)) = 2 ^ (8 * k) * 256 := by
  rw [Nat.mul_add, Nat.pow_add]

/-- The big-endian value of a byte list is bounded by its width. -/
theorem beVal_lt (x : List Byte) : beVal x < 2 ^ (8 * x.length) := by
  induction x with
  | nil => simp [beVal]
  | cons b bs ih =>
    have hb : b.val ≤ 255 := Nat.le_of_lt_succ b.isLt
    have hv : beVal (b :: bs) = b.val * 2 ^ (8 * bs.length) + beVal bs := rfl
    rw [hv, List.length_cons, pow_step]
    nlinarith [ih]

/-- The or-accumulation of `pack` computes the big-endian value: each
byte occupies bits disjoint from the rest. -/
theorem packCore_eq_beVal (x : List Byte) : packCore x = beVal x := by
  induction x with
  | nil => rfl
  | cons b bs ih =>
    have hlt : beVal bs < 2 ^ (8 * bs.length) := beVal_lt bs
    simp only [packCore, beVal, ih, Nat.shiftLeft_eq]
    rw [Nat.mul_comm (b.val) (2 ^ (8 * bs.length))]
    exact (Nat.mul_add_lt_is_or hlt _).symm

/-- Appending a least-significant byte on the right. -/
theorem beVal_append (xs : List Byte) (b : Byte) :
    beVal (xs ++ [b]) = beVal xs * 256 + b.val := by
  induction xs with
  | nil => simp [beVal]
  | cons a as ih =>
    have hlen : (as ++ [b]).length = as.length + 1 := by simp
    calc beVal ((a :: as) ++ [b])
        = a.val * 2 ^ (8 * (as ++ [b]).length) + beVal (as ++ [b]) := rfl
      _ = a.val * (2 ^ (8 * as.length) * 256) + (beVal as * 256 + b.val) := by
          rw [hlen, pow_step, ih]
      _ = (a.val * 2 ^ (8 * as.length) + beVal as) * 256 + b.val := by ring
      _ = beVal (a :: as) * 256 + b.val := rfl

/-- Reversing a byte list swaps the big- and little-endian readings. -/
theorem beVal_reverse (x : List Byte) : beVal x.reverse = leVal x := by
  induction x with
  | nil => rfl
  | cons b bs ih =>
    have hv : leVal (b :: bs) = b.val + 256 * leVal bs := rfl
    simp only [List.reverse_cons, beVal_append, ih, hv]
    ring

/-- `set_endian` preserves the byte count. -/
theorem set_endianOn_length (host : Endian) (b : List Byte) (order : Endian) :
    (set_endianOn host b order).length = b.length := by
  unfold set_endianOn
  split <;> simp

/-- The or-accumulation over the host-normalised bytes computes the
little-endian value of the original bytes on a little-endian host. -/
theorem packCore_set_endian_little (x : List Byte) :
    packCore (set_endianOn .little x .big) = leVal x := by
  unfold set_endianOn
  by_cases h1 : x.length ≤ 1
  · rw [if_pos (Or.inr h1)]
    match x, h1 with
    | [], _ => rfl
    | [b], _ => simp [packCore, leVal, Nat.shiftLeft_eq]
  · rw [if_neg (by simp [h1])]
    rw [packCore_eq_beVal, beVal_reverse]

/-- On a little-endian host, `pack` of exactly the required number of
bytes succeeds and yields the little-endian value of the input. -/
theorem packOn_little_full (x : List Byte) (w : Nat)
    (hw : w = 8 ∨ w = 16 ∨ w = 32 ∨ w = 64) (hx : x.length = w / 8) :
    packOn .little x w = .ok (leVal x) := by
  have hlen : (set_endianOn .little x .big).length = x.length := set_endianOn_length ..
  rcases hw with h | h | h | h <;> subst h <;>
    simp [packOn, hlen, hx, packCore_set_endian_little]

/-- `pack` of a single byte yields that byte's value. -/
theorem pack_one (b : Byte) : pack [b] 8 = .ok b.val :=
  packOn_little_full [b] 8 (by omega) (by simp)

/-- The minimal `k`-byte little-endian encoding of `n`. -/
def leBytes : Nat → Nat → List Byte
  | 0, _ => []
  | k + 1, n => Fin.ofNat n :: leBytes k (n / 256)

/-- `leBytes` produces exactly `k` bytes. -/
theorem leBytes_length (k n : Nat) : (leBytes k n).length = k := by
  induction k generalizing n with
  | zero => rfl
  | succ k ih => simp [leBytes, ih]

/-- Decoding the little-endian bytes of a value below the width bound
returns the value. -/
theorem leVal_leBytes (k n : Nat) (h : n < 2 ^ (8 * k)) :
    leVal (leBytes k n) = n := by
  induction k generalizing n with
  | zero =>
    norm_num at h
    subst h
    rfl
  | succ k ih =>
    have hdiv : n / 256 < 2 ^ (8 * k) := by
      rw [Nat.div_lt_iff_lt_mul (by norm_num)]
      rw [pow_step] at h
      omega
    have hofnat : (Fin.ofNat (n := 255) n).val = n % 256 := rfl
    have hv : leVal (Fin.ofNat n :: leBytes k (n / 256)) =
        (Fin.ofNat (n := 255) n).val + 256 * leVal (leBytes k (n / 256)) := rfl
    rw [leBytes, hv, hofnat, ih (n / 256) hdiv]
    omega

/-- Reading `n` bytes positioned exactly at a segment boundary returns
that segment when it has length `n`. -/
theorem Reader.read_exact (data pre mid post : List Byte) (n : Nat)
    (hdata : data = pre ++ (mid ++ post)) (hmid : mid.length = n) :
    Reader.read ⟨data, pre.length⟩ n = (mid, ⟨data, pre.length + n⟩) := by
  subst hdata
  subst hmid
  unfold Reader.read
  simp [List.drop_left, List.take_left]

/-- The minimal compact-size (VarInt) encoding of `n`, as the claim
describes it: one byte below `0xfd`, otherwise a discriminant byte
`0xfd`, `0xfe` or `0xff` followed by the value in 2, 4 or 8
little-endian bytes. -/
def minimalVarIntEncoding (n : Nat) : List Byte :=
  if n < 0xfd then [Fin.ofNat n]
  else if n < 0x10000 then (0xfd : Byte) :: leBytes 2 n
  else if n < 0x100000000 then (0xfe : Byte) :: leBytes 4 n
  else (0xff : Byte) :: leBytes 8 n

/-- A discriminant byte below `0xfd` decodes to itself, consuming one byte. -/
theorem read_varint_small (b : Byte) (hb : b.val < 0xfd) (rest : List Byte) :
    read_varint ⟨b :: rest, 0⟩ = .ok (b.val, ⟨b :: rest, 1⟩) := by
  have hread : Reader.read ⟨b :: rest, 0⟩ 1 = ([b], ⟨b :: rest, 1⟩) :=
    Reader.read_exact _ [] [b] rest 1 rfl rfl
  simp only [read_varint, hread]
  rw [pack_one]
  show (if b.val < 253 then pure (b.val, (⟨b :: rest, 1⟩ : Reader)) else _) = _
  rw [if_pos hb]
  rfl

/-- After discriminant `0xfd`, `read_varint` reads two bytes and either
rejects a value below `0xfd` as non-canonical or returns it, consuming
three bytes in all. -/
theorem read_varint_fd (mid rest : List Byte) (hmid : mid.length = 2) :
    read_varint ⟨(0xfd : Byte) :: (mid ++ rest), 0⟩ =
      if leVal mid < 0xfd then .error .nonCanonicalVarint
      else .ok (leVal mid, ⟨(0xfd : Byte) :: (mid ++ rest), 3⟩) := by
  have hread1 : Reader.read ⟨(0xfd : Byte) :: (mid ++ rest), 0⟩ 1 =
      ([(0xfd : Byte)], ⟨(0xfd : Byte) :: (mid ++ rest), 1⟩) :=
    Reader.read_exact _ [] [(0xfd : Byte)] (mid ++ rest) 1 (by simp) rfl
  have hread2 : Reader.read ⟨(0xfd : Byte) :: (mid ++ rest), 1⟩ 2 =
      (mid, ⟨(0xfd : Byte) :: (mid ++ rest), 3⟩) :=
    Reader.read_exact _ [(0xfd : Byte)] mid rest 2 (by simp) hmid
  have hpack : pack mid 16 = .ok (leVal mid) :=
    packOn_little_full mid 16 (by omega) (by rw [hmid])
  have h253 : ((0xfd : Byte)).val = 253 := rfl
  simp only [read_varint, hread1]
  rw [pack_one, h253]
  simp only [bind, Except.bind]
  norm_num
  simp only [hread2]
  rw [hpack]
  show (if leVal mid < 253 then throw PyErr.nonCanonicalVarint
    else pure (leVal mid, (⟨(0xfd : Byte) :: (mid ++ rest), 3⟩ : Reader))) = _
  split <;> rfl

/-- After discriminant `0xfe`, `read_varint` reads four bytes and either
rejects a value below `0x10000` as non-canonical or returns it, consuming
five bytes in all. -/
theorem read_varint_fe (mid rest : List Byte) (hmid : mid.length = 4) :
    read_varint ⟨(0xfe : Byte) :: (mid ++ rest), 0⟩ =
      if leVal mid < 0x10000 then .error .nonCanonicalVarint
      else .ok (leVal mid, ⟨(0xfe : Byte) :: (mid ++ rest), 5⟩) := by
  have hread1 : Reader.read ⟨(0xfe : Byte) :: (mid ++ rest), 0⟩ 1 =
      ([(0xfe : Byte)], ⟨(0xfe : Byte) :: (mid ++ rest), 1⟩) :=
    Reader.read_exact _ [] [(0xfe : Byte)] (mid ++ rest) 1 (by simp) rfl
  have hread2 : Reader.read ⟨(0xfe : Byte) :: (mid ++ rest), 1⟩ 4 =
      (mid, ⟨(0xfe : Byte) :: (mid ++ rest), 5⟩) :=
    Reader.read_exact _ [(0xfe : Byte)] mid rest 4 (by simp) hmid
  have hpack : pack mid 32 = .ok (leVal mid) :=
    packOn_little_full mid 32 (by omega) (by rw [hmid])
  have h254 : ((0xfe : Byte)).val = 254 := rfl
  simp only [read_varint, hread1]
  rw [pack_one, h254]
  simp only [bind, Except.bind]
  norm_num
  simp only [hread2]
  rw [hpack]
  show (if leVal mid < 65536 then throw PyErr.nonCanonicalVarint
    else pure (leVal mid, (⟨(0xfe : Byte) :: (mid ++ rest), 5⟩ : Reader))) = _
  split <;> rfl

/-- After discriminant `0xff`, `read_varint` reads eight bytes and either
rejects a value below `0x100000000` as non-canonical or returns it,
consuming nine bytes in all. -/
theorem read_varint_ff (mid rest : List Byte) (hmid : mid.length = 8) :
    read_varint ⟨(0xff : Byte) :: (mid ++ rest), 0⟩ =
      if leVal mid < 0x100000000 then .error .nonCanonicalVarint
      else .ok (leVal mid, ⟨(0xff : Byte) :: (mid ++ rest), 9⟩) := by
  have hread1 : Reader.read ⟨(0xff : Byte) :: (mid ++ rest), 0⟩ 1 =
      ([(0xff : Byte)], ⟨(0xff : Byte) :: (mid ++ rest), 1⟩) :=
    Reader.read_exact _ [] [(0xff : Byte)] (mid ++ rest) 1 (by simp) rfl
  have hread2 : Reader.read ⟨(0xff : Byte) :: (mid ++ rest), 1⟩ 8 =
      (mid, ⟨(0xff : Byte) :: (mid ++ rest), 9⟩) :=
    Reader.read_exact _ [(0xff : Byte)] mid rest 8 (by simp) hmid
  have hpack : pack mid 64 = .ok (leVal mid) :=
    packOn_little_full mid 64 (by omega) (by rw [hmid])
  have h255 : ((0xff : Byte)).val = 255 := rfl
  simp only [read_varint, hread1]
  rw [pack_one, h255]
  simp only [bind, Except.bind]
  norm_num
  simp only [hread2]
  rw [hpack]
  show (if leVal mid < 4294967296 then throw PyErr.nonCanonicalVarint
    else pure (leVal mid, (⟨(0xff : Byte) :: (mid ++ rest), 9⟩ : Reader))) = _
  split <;> rfl

/-- C4: for every unsigned 64-bit value `n`, decoding the minimal
compact-size encoding of `n` (followed by any further bytes) returns `n`
and leaves the reader exactly past the encoding, whose length is 1, 3, 5
or 9 bytes according to the range of `n`. -/
theorem varint_decode_roundtrip (n : Nat) (hn : n < 2 ^ 64) (rest : List Byte) :
    read_varint ⟨minimalVarIntEncoding n ++ rest, 0⟩ =
      .ok (n, ⟨minimalVarIntEncoding n ++ rest, (minimalVarIntEncoding n).length⟩) ∧
    (minimalVarIntEncoding n).length =
      if n < 0xfd then 1 else if n < 0x10000 then 3
      else if n < 0x100000000 then 5 else 9 := by
  by_cases h1 : n < 0xfd
  · have henc : minimalVarIntEncoding n = [Fin.ofNat n] := by
      unfold minimalVarIntEncoding
      rw [if_pos h1]
    have hlen : (minimalVarIntEncoding n).length = 1 := by rw [henc]; rfl
    refine ⟨?_, by rw [hlen, if_pos h1]⟩
    rw [hlen, henc]
    have hval : (Fin.ofNat (n := 255) n).val = n := by
      have hmod : (Fin.ofNat (n := 255) n).val = n % 256 := rfl
      omega
    have h := read_varint_small (Fin.ofNat n) (by rw [hval]; exact h1) rest
    rw [hval] at h
    simpa using h
  · by_cases h2 : n < 0x10000
    · have henc : minimalVarIntEncoding n = (0xfd : Byte) :: leBytes 2 n := by
        unfold minimalVarIntEncoding
        rw [if_neg h1, if_pos h2]
      have hlen : (minimalVarIntEncoding n).length = 3 := by
        rw [henc]
        simp [leBytes_length]
      refine ⟨?_, by rw [hlen, if_neg h1, if_pos h2]⟩
      rw [hlen, henc]
      simp only [List.cons_append]
      have h := read_varint_fd (leBytes 2 n) rest (leBytes_length 2 n)
      rw [leVal_leBytes 2 n (by norm_num; omega)] at h
      rw [h, if_neg h1]
    · by_cases h3 : n < 0x100000000
      · have henc : minimalVarIntEncoding n = (0xfe : Byte) :: leBytes 4 n := by
          unfold minimalVarIntEncoding
          rw [if_neg h1, if_neg h2, if_pos h3]
        have hlen : (minimalVarIntEncoding n).length = 5 := by
          rw [henc]
          simp [leBytes_length]
        refine ⟨?_, by rw [hlen, if_neg h1, if_neg h2, if_pos h3]⟩
        rw [hlen, henc]
        simp only [List.cons_append]
        have h := read_varint_fe (leBytes 4 n) rest (leBytes_length 4 n)
        rw [leVal_leBytes 4 n (by norm_num; omega)] at h
        rw [h, if_neg h2]
      · have henc : minimalVarIntEncoding n = (0xff : Byte) :: leBytes 8 n := by
          unfold minimalVarIntEncoding
          rw [if_neg h1, if_neg h2, if_neg h3]
        have hlen : (minimalVarIntEncoding n).length = 9 := by
          rw [henc]
          simp [leBytes_length]
        refine ⟨?_, by rw [hlen, if_neg h1, if_neg h2, if_neg h3]⟩
        rw [hlen, henc]
        simp only [List.cons_append]
        have h := read_varint_ff (leBytes 8 n) rest (leBytes_length 8 n)
        rw [leVal_leBytes 8 n (by norm_num; omega)] at h
        rw [h, if_neg h3]

/-- Witness for C4: the three-byte encoding of 300 decodes back to 300. -/
theorem varint_decode_roundtrip_witness :
    300 < 2 ^ 64 ∧
    (read_varint ⟨minimalVarIntEncoding 300 ++ [], 0⟩ =
      .ok (300, ⟨minimalVarIntEncoding 300 ++ [], (minimalVarIntEncoding 300).length⟩) ∧
    (minimalVarIntEncoding 300).length =
      if 300 < 0xfd then 1 else if 300 < 0x10000 then 3
      else if 300 < 0x100000000 then 5 else 9) :=
  ⟨by norm_num, varint_decode_roundtrip 300 (by norm_num) []⟩

/-- C5: after discriminant `0xfd` the decoded two-byte value must be at
least `0xfd`, after `0xfe` the four-byte value at least `0x10000`, and
after `0xff` the eight-byte value at least `0x100000000`; below the
threshold decoding fails with the non-canonical `ValueError`, otherwise
it succeeds with the decoded value. -/
theorem varint_canonicality :
    (∀ (b0 b1 : Byte) (rest : List Byte),
      read_varint ⟨(0xfd : Byte) :: b0 :: b1 :: rest, 0⟩ =
        if leVal [b0, b1] < 0xfd then .error .nonCanonicalVarint
        else .ok (leVal [b0, b1], ⟨(0xfd : Byte) :: b0 :: b1 :: rest, 3⟩)) ∧
    (∀ (b0 b1 b2 b3 : Byte) (rest : List Byte),
      read_varint ⟨(0xfe : Byte) :: b0 :: b1 :: b2 :: b3 :: rest, 0⟩ =
        if leVal [b0, b1, b2, b3] < 0x10000 then .error .nonCanonicalVarint
        else .ok (leVal [b0, b1, b2, b3],
          ⟨(0xfe : Byte) :: b0 :: b1 :: b2 :: b3 :: rest, 5⟩)) ∧
    (∀ (b0 b1 b2 b3 b4 b5 b6 b7 : Byte) (rest : List Byte),
      read_varint ⟨(0xff : Byte) :: b0 :: b1 :: b2 :: b3 :: b4 :: b5 :: b6 :: b7 :: rest, 0⟩ =
        if leVal [b0, b1, b2, b3, b4, b5, b6, b7] < 0x100000000 then
          .error .nonCanonicalVarint
        else .ok (leVal [b0, b1, b2, b3, b4, b5, b6, b7],
          ⟨(0xff : Byte) :: b0 :: b1 :: b2 :: b3 :: b4 :: b5 :: b6 :: b7 :: rest, 9⟩)) :=
  ⟨fun b0 b1 rest => read_varint_fd [b0, b1] rest rfl,
   fun b0 b1 b2 b3 rest => read_varint_fe [b0, b1, b2, b3] rest rfl,
   fun b0 b1 b2 b3 b4 b5 b6 b7 rest =>
     read_varint_ff [b0, b1, b2, b3, b4, b5, b6, b7] rest rfl⟩

set_option maxRecDepth 20000

/-! ## C7, C1, C2: concrete evaluations of the code -/

deriving instance DecidableEq for Except

/-- C7: the fixed-width integer decode is host-dependent.  The two-byte
input `01 00` packs to 1 on a little-endian host but to 256 on a
big-endian host, because `pack` normalises the input against
`sys.byteorder` before accumulating; the claim that the same bytes
yield the same value on both hosts is false. -/
theorem pack_host_dependence :
    packOn .little [(1 : Byte), 0] 16 = .ok 1 ∧
    packOn .big [(1 : Byte), 0] 16 = .ok 256 := by decide

/-- C1: the identifier the claim (and the consensus rules) specify for
the 80-byte genesis header is the well-known constant, but `sha256_2`
byte-reverses the first digest before applying the second hash, so the
decoder's identifier for the genesis header is a different string. -/
theorem genesis_identifier_code_bug :
    claimedIdentifier genesisHeader =
      "000000000019d6689c085ae165831e934ff763ae46a2a6c172b3f1b60a8ce26f" ∧
    bytesHex (sha256_2 genesisHeader) =
      "c9910e22052520e065206445c8d6b67e0f312d4c535ec8514481703c890d88ea" ∧
    bytesHex (sha256_2 genesisHeader) ≠
      "000000000019d6689c085ae165831e934ff763ae46a2a6c172b3f1b60a8ce26f" := by
  refine ⟨by decide, by decide, ?_⟩
  intro h
  have h2 : bytesHex (sha256_2 genesisHeader) =
      "c9910e22052520e065206445c8d6b67e0f312d4c535ec8514481703c890d88ea" := by decide
  rw [h2] at h
  exact absurd h (by decide)

/-- The serialization of a one-input, one-output transaction without the
segwit marker/flag: version 1, one input (previous hash `11...11`,
index 0, empty signature script, sequence `0xffffffff`), one output
(value `0x12`, empty script), lock time 0. -/
def plainTxBytes : List Byte :=
  [0x01, 0x00, 0x00, 0x00, 0x01, 0x11, 0x11, 0x11, 0x11, 0x11,
   0x11, 0x11, 0x11, 0x11, 0x11, 0x11, 0x11, 0x11, 0x11, 0x11,
   0x11, 0x11, 0x11, 0x11, 0x11, 0x11, 0x11, 0x11, 0x11, 0x11,
   0x11, 0x11, 0x11, 0x11, 0x11, 0x11, 0x11, 0x00, 0x00, 0x00,
   0x00, 0x00, 0xff, 0xff, 0xff, 0xff, 0x01, 0x12, 0x00, 0x00,
   0x00, 0x00, 0x00, 0x00, 0x00, 0x00, 0x00, 0x00, 0x00, 0x00]

/-- The serialization of the same transaction body with the `0x00 0x01`
segwit marker/flag after the version and one empty witness stack (a
single `0x00` item count) for its single input before the lock time. -/
def segwitTxBytes : List Byte :=
  [0x01, 0x00, 0x00, 0x00, 0x00, 0x01, 0x01, 0x11, 0x11, 0x11,
   0x11, 0x11, 0x11, 0x11, 0x11, 0x11, 0x11, 0x11, 0x11, 0x11,
   0x11, 0x11, 0x11, 0x11, 0x11, 0x11, 0x11, 0x11, 0x11, 0x11,
   0x11, 0x11, 0x11, 0x11, 0x11, 0x11, 0x11, 0x11, 0x11, 0x00,
   0x00, 0x00, 0x00, 0x00, 0xff, 0xff, 0xff, 0xff, 0x01, 0x12,
   0x00, 0x00, 0x00, 0x00, 0x00, 0x00, 0x00, 0x00, 0x00, 0x00,
   0x00, 0x00, 0x00]

/-- C2: decoding the non-witness serialization succeeds and produces an
identifier, but decoding the segwit serialization of the same body
raises `TypeError` (the un-called `buffer.tell` stored by
`Transaction.__init__` is subtracted from an `int`), so the two
serializations do not decode to the same identifier. -/
theorem segwit_txid_code_bug :
    Transaction.decode ⟨segwitTxBytes, 0⟩ = .error .typeError ∧
    (Transaction.decode ⟨plainTxBytes, 0⟩).map (fun p => p.1.hash) =
      .ok "1be76e5ee69569cac3f6ce11e6c79ec0da305f5e1750aea6b11569119390069b" := by
  constructor
  · decide
  · decide

/-! ## C10: missing hash resolves to the last block -/

/-- When no entry matches, the `enumerate` search returns `-1` from any
starting position. -/
theorem findHashAux_miss (i : Nat) (index : List IndexEntry) (h : String)
    (hmiss : ∀ e ∈ index, e.hash ≠ h) : findHashAux i index h = -1 := by
  induction index generalizing i with
  | nil => rfl
  | cons e rest ih =>
    have hne : h ≠ e.hash := fun hh => (hmiss e (by simp)) hh.symm
    simp only [findHashAux, if_neg hne]
    exact ih (i + 1) fun x hx => hmiss x (by simp [hx])

/-- Python index `-1` into a non-empty list selects the last element. -/
theorem pyIndex_neg_one (l : List IndexEntry) (hne : l ≠ []) :
    pyIndex l (-1) = .ok (l.getLast hne) := by
  have hl : 0 < l.length := List.length_pos.mpr hne
  have hj : (if (-1 : Int) < 0 then -1 + (l.length : Int) else -1) = (l.length : Int) - 1 := by
    rw [if_pos (by norm_num)]
    ring
  have hlast : l[((l.length : Int) - 1).toNat]? = some (l.getLast hne) := by
    have htn : ((l.length : Int) - 1).toNat = l.length - 1 := by omega
    rw [htn, List.getElem?_eq_getElem (by omega), List.getLast_eq_getElem]
  simp only [pyIndex, hj, hlast, if_pos (by omega : (0 : Int) ≤ (l.length : Int) - 1)]

/-- C10: for a reader with a non-empty index and a hash string matching
no entry, `get_block_index_by_hash` returns `-1`, and `get_block_by_hash`
therefore returns the same result as `get_block_by_index` at `-1`, which
decodes the byte range of the LAST indexed entry instead of reporting a
lookup failure. -/
theorem lookup_miss_returns_last (data : List Byte) (index : List IndexEntry)
    (h : String) (hne : index ≠ []) (hmiss : ∀ e ∈ index, e.hash ≠ h) :
    get_block_index_by_hash index h = -1 ∧
    get_block_by_hash data index h = get_block_by_index data index (-1) ∧
    get_block_by_index data index (-1) =
      Block.decode ((Reader.seek ⟨data, 0⟩ (index.getLast hne).start).read
        (index.getLast hne).size).1 := by
  have h1 : get_block_index_by_hash index h = -1 := findHashAux_miss 0 index h hmiss
  refine ⟨h1, ?_, ?_⟩
  · unfold get_block_by_hash
    rw [h1]
  · unfold get_block_by_index
    rw [pyIndex_neg_one index hne]
    rfl

/-- Witness for C10: a one-entry index and an absent hash. -/
theorem lookup_miss_returns_last_witness :
    get_block_index_by_hash [⟨"aa", 0, 0, 0⟩] "bb" = -1 ∧
    get_block_by_hash [] [⟨"aa", 0, 0, 0⟩] "bb" =
      get_block_by_index [] [⟨"aa", 0, 0, 0⟩] (-1) :=
  have h := lookup_miss_returns_last [] [⟨"aa", 0, 0, 0⟩] "bb" (by simp)
    (by simp)
  ⟨h.1, h.2.1⟩

/-! ## Generic read-step evaluations -/

/-- `read_uint32` at a position with four bytes available succeeds with
the little-endian value of those bytes. -/
theorem read_uint32_ok (data : List Byte) (pos : Nat) (h : pos + 4 ≤ data.length) :
    read_uint32 ⟨data, pos⟩ = .ok (leVal ((data.drop pos).take 4), ⟨data, pos + 4⟩) := by
  have hlen : ((data.drop pos).take 4).length = 4 := by
    simp only [List.length_take, List.length_drop]
    omega
  simp only [read_uint32, Reader.read, hlen]
  rw [show pack ((data.drop pos).take 4) 32 = .ok (leVal ((data.drop pos).take 4)) from
    packOn_little_full _ 32 (by omega) (by rw [hlen])]
  rfl

/-- `read_uint64` at a position with eight bytes available succeeds with
the little-endian value of those bytes. -/
theorem read_uint64_ok (data : List Byte) (pos : Nat) (h : pos + 8 ≤ data.length) :
    read_uint64 ⟨data, pos⟩ = .ok (leVal ((data.drop pos).take 8), ⟨data, pos + 8⟩) := by
  have hlen : ((data.drop pos).take 8).length = 8 := by
    simp only [List.length_take, List.length_drop]
    omega
  simp only [read_uint64, Reader.read, hlen]
  rw [show pack ((data.drop pos).take 8) 64 = .ok (leVal ((data.drop pos).take 8)) from
    packOn_little_full _ 64 (by omega) (by rw [hlen])]
  rfl

/-- `read_hash256` at a position with 32 bytes available returns the hex
of those bytes in display order and advances by 32. -/
theorem read_hash256_eq (data : List Byte) (pos : Nat) (h : pos + 32 ≤ data.length) :
    read_hash256 ⟨data, pos⟩ =
      (bytesHex (set_endianOn .little ((data.drop pos).take 32) .big), ⟨data, pos + 32⟩) := by
  have hlen : ((data.drop pos).take 32).length = 32 := by
    simp only [List.length_take, List.length_drop]
    omega
  simp only [read_hash256, Reader.read, hlen]

/-- `read_varint` at a position holding a byte below `0xfd` returns that
byte's value and advances by one. -/
theorem read_varint_small_at (data : List Byte) (pos : Nat) (b : Byte)
    (hdrop : data.drop pos = b :: (data.drop (pos + 1))) (hb : b.val < 0xfd) :
    read_varint ⟨data, pos⟩ = .ok (b.val, ⟨data, pos + 1⟩) := by
  have hread : Reader.read ⟨data, pos⟩ 1 = ([b], ⟨data, pos + 1⟩) := by
    simp only [Reader.read, hdrop]
    rfl
  simp only [read_varint, hread]
  rw [pack_one]
  show (if b.val < 253 then pure (b.val, (⟨data, pos + 1⟩ : Reader)) else _) = _
  rw [if_pos hb]
  rfl

/-! ## C8: a zero transaction count decodes successfully -/

/-- C8 counterexample: a block whose 80-byte header is all zeros and
whose transaction-count varint is zero decodes successfully to a `Block`
with an empty transaction list, not to a content error. -/
theorem zero_txcount_counterexample :
    (Block.decode (List.replicate 80 (0 : Byte) ++ [0])).map
      (fun B => (B.transaction_count, B.transactions)) = .ok (0, []) := by decide

/-- C8 amended: for every 80-byte header, decoding the block made of
that header followed by the single transaction-count byte `0x00`
succeeds and produces a `Block` with `transaction_count = 0` and an
empty transaction list. -/
theorem zero_txcount_succeeds (h : List Byte) (hlen : h.length = 80) :
    (Block.decode (h ++ [(0 : Byte)])).map
      (fun B => (B.transaction_count, B.transactions)) = .ok (0, []) := by
  have hdl : (h ++ [(0 : Byte)]).length = 81 := by simp [hlen]
  have h1 := read_uint32_ok (h ++ [0]) 0 (by omega)
  have h2 := read_hash256_eq (h ++ [0]) 4 (by omega)
  have h3 := read_hash256_eq (h ++ [0]) 36 (by omega)
  have h4 := read_uint32_ok (h ++ [0]) 68 (by omega)
  have h5 := read_uint32_ok (h ++ [0]) 72 (by omega)
  have h6 := read_uint32_ok (h ++ [0]) 76 (by omega)
  norm_num at h1 h2 h3 h4 h5 h6
  have h80 : Reader.read ⟨h ++ [(0 : Byte)], 0⟩ 80 = (h, ⟨h ++ [0], 80⟩) := by
    have hx := Reader.read_exact (h ++ [0]) [] h [0] 80 (by simp) hlen
    simpa using hx
  have hdrop : (h ++ [(0 : Byte)]).drop 80 = (0 : Byte) :: ((h ++ [0]).drop 81) := by
    conv_lhs => rw [← hlen]
    rw [List.drop_left]
    have : (h ++ [(0 : Byte)]).drop 81 = [] := by
      apply List.drop_eq_nil_of_le
      omega
    rw [this]
  have hv : read_varint ⟨h ++ [(0 : Byte)], 80⟩ = .ok (0, ⟨h ++ [0], 81⟩) := by
    have := read_varint_small_at (h ++ [0]) 80 0 hdrop (by decide)
    simpa using this
  simp only [Block.decode, Reader.seek, h1, h2, h3, h4, h5, h6, h80, hv, bind,
    Except.bind, decodeN, Except.map]
  rfl

/-- Witness for C8: a distinct concrete 80-byte header with a zero
transaction count decodes to an empty transaction list. -/
theorem zero_txcount_succeeds_witness :
    (Block.decode (List.replicate 80 (37 : Byte) ++ [(0 : Byte)])).map
      (fun B => (B.transaction_count, B.transactions)) = .ok (0, []) :=
  zero_txcount_succeeds (List.replicate 80 (37 : Byte)) (by decide)

/-! ## C6: oversized script lengths are read chunked, not rejected -/

/-- A transaction-input record whose declared script size (5) exceeds
the two bytes remaining in its block slice: 32-byte previous hash,
4-byte index, the varint `05`, then only `aa bb`. -/
def txInOverflowBytes : List Byte :=
  [0x11, 0x11, 0x11, 0x11, 0x11, 0x11, 0x11, 0x11, 0x11, 0x11,
   0x11, 0x11, 0x11, 0x11, 0x11, 0x11, 0x11, 0x11, 0x11, 0x11,
   0x11, 0x11, 0x11, 0x11, 0x11, 0x11, 0x11, 0x11, 0x11, 0x11,
   0x11, 0x11, 0x00, 0x00, 0x00, 0x00, 0x05, 0xaa, 0xbb]

/-- C6 counterexample: with script size 5 declared but only two bytes
left, `TransactionInput.__init__` does not fail with any overflow
error: it reads the two available bytes as the script, then reads the
sequence field at end-of-buffer as 0, and succeeds. -/
theorem script_overflow_counterexample :
    TransactionInput.decode ⟨txInOverflowBytes, 0⟩ =
      .ok ({ hash := "1111111111111111111111111111111111111111111111111111111111111111",
             n := 0, script_size := 5, sig_script := "bbaa", sequence := 0 },
           ⟨txInOverflowBytes, 39⟩) := by decide

/-- `read_uint32` at or past the end of the data returns 0 (Python
`read` yields `b''` and `pack` maps empty input to `uint8(0)`). -/
theorem read_uint32_eof (data : List Byte) (pos : Nat) (h : data.length ≤ pos) :
    read_uint32 ⟨data, pos⟩ = .ok (0, ⟨data, pos⟩) := by
  have hdrop : data.drop pos = [] := List.drop_eq_nil_of_le h
  simp only [read_uint32, Reader.read, hdrop, List.take_nil]
  rfl

/-- C6 amended: when the declared script size exceeds the remaining
bytes of the enclosing slice (and is below the `0xffffffff` chunk
threshold), `TransactionInput.__init__` performs no budget check and
raises no error: the chunk loop reads all remaining bytes as the
script, the sequence field decodes as 0 from the empty tail, and the
decode succeeds having consumed the whole slice. -/
theorem script_overflow_reads_available (h32 n4 : List Byte) (sb : Byte)
    (rest : List Byte) (hh : h32.length = 32) (hn : n4.length = 4)
    (hsb : sb.val < 0xfd) (hrest : rest.length < sb.val) :
    TransactionInput.decode ⟨h32 ++ (n4 ++ (sb :: rest)), 0⟩ =
      .ok ({ hash := bytesHex (set_endianOn .little h32 .big),
             n := leVal n4, script_size := sb.val,
             sig_script := bytesHex (set_endianOn .little rest .big),
             sequence := 0 },
           ⟨h32 ++ (n4 ++ (sb :: rest)), 37 + rest.length⟩) := by
  have hdl : (h32 ++ (n4 ++ (sb :: rest))).length = 37 + rest.length := by
    simp [hh, hn]
    omega
  have hd32 : (h32 ++ (n4 ++ (sb :: rest))).drop 32 = n4 ++ (sb :: rest) := by
    conv_lhs => rw [← hh]
    exact List.drop_left h32 _
  have ht32 : (h32 ++ (n4 ++ (sb :: rest))).take 32 = h32 := by
    conv_lhs => rw [← hh]
    exact List.take_left h32 _
  have hd36 : (h32 ++ (n4 ++ (sb :: rest))).drop 36 = sb :: rest := by
    have : (36 : Nat) = 32 + 4 := rfl
    rw [this, ← List.drop_drop, hd32]
    conv_lhs => rw [← hn]
    exact List.drop_left n4 _
  have hd37 : (h32 ++ (n4 ++ (sb :: rest))).drop 37 = rest := by
    have : (37 : Nat) = 36 + 1 := rfl
    rw [this, ← List.drop_drop, hd36]
    rfl
  have hstep1 := read_hash256_eq (h32 ++ (n4 ++ (sb :: rest))) 0 (by omega)
  norm_num [ht32] at hstep1
  have hstep2 := read_uint32_ok (h32 ++ (n4 ++ (sb :: rest))) 32 (by omega)
  rw [hd32] at hstep2
  have ht4 : (n4 ++ (sb :: rest)).take 4 = n4 := by
    conv_lhs => rw [← hn]
    exact List.take_left n4 _
  rw [ht4] at hstep2
  have hstep3 := read_varint_small_at (h32 ++ (n4 ++ (sb :: rest))) 36 sb
    (by rw [hd36, hd37]) hsb
  have hchunk : readScriptChunks ⟨h32 ++ (n4 ++ (sb :: rest)), 37⟩ sb.val =
      ([bytesHex (set_endianOn .little rest .big)],
       ⟨h32 ++ (n4 ++ (sb :: rest)), 37 + rest.length⟩) := by
    have hfuel : sb.val / 0xffffffff + 1 = 1 := by
      rw [Nat.div_eq_of_lt (by omega)]
    have htake : ((h32 ++ (n4 ++ (sb :: rest))).drop 37).take sb.val = rest := by
      rw [hd37]
      exact List.take_of_length_le (by omega)
    simp only [readScriptChunks, hfuel, readChunksAux, Reader.read, htake,
      if_neg (by omega : ¬ sb.val = 0), if_neg (by omega : ¬ 0xffffffff ≤ sb.val)]
  have hstep5 := read_uint32_eof (h32 ++ (n4 ++ (sb :: rest))) (37 + rest.length)
    (by omega)
  have hjoin : String.join [bytesHex (set_endianOn .little rest .big)] =
      bytesHex (set_endianOn .little rest .big) := by
    simp [String.join]
  simp only [TransactionInput.decode, hstep1, hstep2, hstep3, hchunk, hstep5,
    bind, Except.bind, hjoin]
  rfl

/-- Witness for C6 amended: script size 7 declared with three bytes
remaining decodes successfully, consuming everything. -/
theorem script_overflow_reads_available_witness :
    TransactionInput.decode ⟨List.replicate 32 (0x22 : Byte) ++
        ([(1 : Byte), 0, 0, 0] ++ ((7 : Byte) :: [(0xcc : Byte), 0xdd, 0xee])), 0⟩ =
      .ok ({ hash := bytesHex (set_endianOn .little (List.replicate 32 (0x22 : Byte)) .big),
             n := leVal [(1 : Byte), 0, 0, 0], script_size := (7 : Byte).val,
             sig_script := bytesHex (set_endianOn .little [(0xcc : Byte), 0xdd, 0xee] .big),
             sequence := 0 },
           ⟨List.replicate 32 (0x22 : Byte) ++
        ([(1 : Byte), 0, 0, 0] ++ ((7 : Byte) :: [(0xcc : Byte), 0xdd, 0xee])), 40⟩) :=
  script_overflow_reads_available (List.replicate 32 (0x22 : Byte))
    [(1 : Byte), 0, 0, 0] (7 : Byte) [(0xcc : Byte), 0xdd, 0xee]
    (by decide) (by decide) (by decide) (by decide)

/-! ## C9: duplicate identifiers are appended silently -/

/-- One iteration of the `_index_block_data` loop: with the position
inside the file and the size field decoded, the loop hashes the 80
bytes at the frame payload, skips the declared size, and appends one
entry, continuing with the remaining fuel. -/
theorem indexLoop_frame (fuel : Nat) (data : List Byte) (pos sz skiplen : Nat)
    (acc : List IndexEntry) (hdr : List Byte)
    (hpos : pos < data.length) (h8 : pos + 8 ≤ data.length)
    (hsz : leVal ((data.drop (pos + 4)).take 4) = sz)
    (hhdr : (data.drop (pos + 8)).take 80 = hdr)
    (hskip : ((data.drop (pos + 8)).take sz).length = skiplen) :
    indexLoop (fuel + 1) ⟨data, pos⟩ data.length acc =
      indexLoop fuel ⟨data, pos + 8 + skiplen⟩ data.length
        (acc ++ [⟨bytesHex (sha256_2 hdr), pos + 8, pos + 8 + skiplen, sz⟩]) := by
  have h1 := read_uint32_ok data pos (by omega)
  have h2 := read_uint32_ok data (pos + 4) (by omega)
  rw [hsz] at h2
  have hadd : pos + 4 + 4 = pos + 8 := by omega
  rw [hadd] at h2
  simp only [indexLoop, if_pos hpos, h1, h2, Reader.seek, Reader.read, bind,
    Except.bind, hhdr, hskip]

/-- An exhausted scan position ends the `_index_block_data` loop with
the accumulated index. -/
theorem indexLoop_done (fuel : Nat) (reader : Reader) (fileSize : Nat)
    (acc : List IndexEntry) (h : ¬ reader.pos < fileSize) :
    indexLoop (fuel + 1) reader fileSize acc = .ok acc := by
  simp only [indexLoop, if_neg h]

/-- The 80-byte payload used by the concrete duplicate-identifier file. -/
def dupPayload : List Byte := List.replicate 80 (0x11 : Byte)

/-- A file holding two frames with byte-identical 80-byte payloads:
4 ignored bytes, the size field `80 00 00 00`, the payload, twice. -/
def dupFileBytes : List Byte :=
  [0, 0, 0, 0] ++ ([(80 : Byte), 0, 0, 0] ++ (dupPayload ++
    ([0, 0, 0, 0] ++ ([(80 : Byte), 0, 0, 0] ++ dupPayload))))

/-- C9 counterexample: indexing a file whose two distinct byte ranges
(starting at offsets 8 and 96) decode to the same identifier succeeds
with both entries silently appended — no DuplicateIdentifier conflict is
surfaced — and the lookup resolves the shared identifier to the first
entry. -/
theorem duplicate_hash_counterexample :
    index_block_data dupFileBytes =
      .ok [⟨bytesHex (sha256_2 dupPayload), 8, 88, 80⟩,
           ⟨bytesHex (sha256_2 dupPayload), 96, 176, 80⟩] ∧
    get_block_index_by_hash
      [⟨bytesHex (sha256_2 dupPayload), 8, 88, 80⟩,
       ⟨bytesHex (sha256_2 dupPayload), 96, 176, 80⟩]
      (bytesHex (sha256_2 dupPayload)) = 0 := by
  constructor
  · decide
  · decide

/-- C9 amended: for every pair of frames with byte-identical 80-byte
payloads (whatever the 4 ignored prefix bytes of each frame hold),
`_index_block_data` appends both entries, keyed by the same identifier
but with distinct byte ranges, and reports no conflict;
`get_block_index_by_hash` then resolves that identifier to the first
entry. -/
theorem duplicate_hash_appended (a b p : List Byte)
    (ha : a.length = 4) (hb : b.length = 4) (hp : p.length = 80) :
    index_block_data (a ++ ([(80 : Byte), 0, 0, 0] ++ (p ++
        (b ++ ([(80 : Byte), 0, 0, 0] ++ p))))) =
      .ok [⟨bytesHex (sha256_2 p), 8, 88, 80⟩,
           ⟨bytesHex (sha256_2 p), 96, 176, 80⟩] ∧
    get_block_index_by_hash
      [⟨bytesHex (sha256_2 p), 8, 88, 80⟩, ⟨bytesHex (sha256_2 p), 96, 176, 80⟩]
      (bytesHex (sha256_2 p)) = 0 := by
  refine ⟨?_, by simp [get_block_index_by_hash, findHashAux]⟩
  set data := a ++ ([(80 : Byte), 0, 0, 0] ++ (p ++
    (b ++ ([(80 : Byte), 0, 0, 0] ++ p)))) with hdata
  have hdl : data.length = 176 := by
    simp [hdata, ha, hb, hp]
  have hd4 : data.drop 4 = [(80 : Byte), 0, 0, 0] ++ (p ++
      (b ++ ([(80 : Byte), 0, 0, 0] ++ p))) := by
    rw [hdata, ← ha, List.drop_left]
  have hd8 : data.drop 8 = p ++ (b ++ ([(80 : Byte), 0, 0, 0] ++ p)) := by
    have h48 : (8 : Nat) = 4 + 4 := rfl
    rw [h48, ← List.drop_drop, hd4]
    rfl
  have hd88 : data.drop 88 = b ++ ([(80 : Byte), 0, 0, 0] ++ p) := by
    have h888 : (88 : Nat) = 8 + 80 := rfl
    rw [h888, ← List.drop_drop, hd8, ← hp, List.drop_left]
  have hd92 : data.drop 92 = [(80 : Byte), 0, 0, 0] ++ p := by
    have h92 : (92 : Nat) = 88 + 4 := rfl
    rw [h92, ← List.drop_drop, hd88, ← hb, List.drop_left]
  have hd96 : data.drop 96 = p := by
    have h96 : (96 : Nat) = 92 + 4 := rfl
    rw [h96, ← List.drop_drop, hd92]
    rfl
  have hsz1 : leVal ((data.drop 4).take 4) = 80 := by
    rw [hd4]
    rfl
  have hsz2 : leVal ((data.drop 92).take 4) = 80 := by
    rw [hd92]
    rfl
  have hhdr1 : (data.drop 8).take 80 = p := by
    rw [hd8, ← hp, List.take_left]
  have hhdr2 : (data.drop 96).take 80 = p := by
    rw [hd96]
    exact List.take_of_length_le (by omega)
  have hskip1 : ((data.drop 8).take 80).length = 80 := by
    rw [hhdr1, hp]
  have hskip2 : ((data.drop 96).take 80).length = 80 := by
    rw [hhdr2, hp]
  have e1 := indexLoop_frame 176 data 0 80 80 [] p (by omega) (by omega)
    (by simpa using hsz1) (by simpa using hhdr1) (by simpa using hskip1)
  have e2 := indexLoop_frame 175 data 88 80 80
    [⟨bytesHex (sha256_2 p), 8, 88, 80⟩] p (by omega) (by omega)
    (by simpa using hsz2) (by simpa using hhdr2) (by simpa using hskip2)
  have e3 := indexLoop_done 174 ⟨data, 176⟩ 176
    [⟨bytesHex (sha256_2 p), 8, 88, 80⟩, ⟨bytesHex (sha256_2 p), 96, 176, 80⟩]
    (by simp)
  norm_num at e1 e2
  rw [hdl] at e1 e2
  rw [show index_block_data data =
    indexLoop (data.length + 1) ⟨data, 0⟩ data.length [] from rfl, hdl]
  rw [show (176 : Nat) + 1 = 177 from rfl] at *
  calc indexLoop 177 ⟨data, 0⟩ 176 []
      = indexLoop 176 ⟨data, 88⟩ 176 [⟨bytesHex (sha256_2 p), 8, 88, 80⟩] := e1
    _ = indexLoop 175 ⟨data, 176⟩ 176
        [⟨bytesHex (sha256_2 p), 8, 88, 80⟩, ⟨bytesHex (sha256_2 p), 96, 176, 80⟩] := e2
    _ = .ok [⟨bytesHex (sha256_2 p), 8, 88, 80⟩,
             ⟨bytesHex (sha256_2 p), 96, 176, 80⟩] := e3

/-- Witness for C9 amended: two frames carrying the same all-`0x22`
payload index to two entries under one identifier. -/
theorem duplicate_hash_appended_witness :
    index_block_data ([9, 9, 9, 9] ++ ([(80 : Byte), 0, 0, 0] ++
        (List.replicate 80 (0x22 : Byte) ++ ([7, 7, 7, 7] ++
          ([(80 : Byte), 0, 0, 0] ++ List.replicate 80 (0x22 : Byte)))))) =
      .ok [⟨bytesHex (sha256_2 (List.replicate 80 (0x22 : Byte))), 8, 88, 80⟩,
           ⟨bytesHex (sha256_2 (List.replicate 80 (0x22 : Byte))), 96, 176, 80⟩] ∧
    get_block_index_by_hash
      [⟨bytesHex (sha256_2 (List.replicate 80 (0x22 : Byte))), 8, 88, 80⟩,
       ⟨bytesHex (sha256_2 (List.replicate 80 (0x22 : Byte))), 96, 176, 80⟩]
      (bytesHex (sha256_2 (List.replicate 80 (0x22 : Byte)))) = 0 :=
  duplicate_hash_appended [9, 9, 9, 9] [7, 7, 7, 7]
    (List.replicate 80 (0x22 : Byte)) (by decide) (by decide) (by decide)

/-! ## C3: the scanner has no padding case and reports no offset -/

/-- C3 counterexample: scanning a file that consists only of four zero
bytes (all-zero frame prefix, i.e. trailing padding) does not terminate
successfully: `get_all_file_blocks` raises
`ValueError("Incorrect magic number.")`. -/
theorem scan_zero_padding_counterexample :
    get_all_file_blocks [0, 0, 0, 0] = ([], some .incorrectMagic) := by decide

/-- C3 amended: at any scan state with at least eight bytes left, a
frame prefix that differs from the magic constant — all-zero padding
included — ends the scan with `ValueError("Incorrect magic number.")`
(which carries no byte offset), preserving the blocks collected so far;
only a prefix equal to the magic constant proceeds, reading the 4-byte
size and invoking the block decoder on the size-prefixed slice. -/
theorem scan_prefix_behavior (fuel : Nat) (data : List Byte) (pos : Nat)
    (blocks : List BtcBlock) (hpos : pos < data.length)
    (hroom : pos + 8 ≤ data.length) :
    (leVal ((data.drop pos).take 4) ≠ BLOCK_MAGIC_NUMBER →
      scanLoop (fuel + 1) ⟨data, pos⟩ data.length blocks =
        (blocks, some .incorrectMagic)) ∧
    (leVal ((data.drop pos).take 4) = BLOCK_MAGIC_NUMBER →
      scanLoop (fuel + 1) ⟨data, pos⟩ data.length blocks =
        (match BtcBlock.decode
            ((Reader.read ⟨data, pos + 4⟩ (leVal ((data.drop (pos + 4)).take 4))).1) with
         | .error e => (blocks, some e)
         | .ok b =>
            scanLoop fuel
              (Reader.read ⟨data, pos + 4⟩ (leVal ((data.drop (pos + 4)).take 4))).2
              data.length (blocks ++ [b]))) := by
  have h1 := read_uint32_ok data pos (by omega)
  have h2 := read_uint32_ok data (pos + 4) (by omega)
  constructor
  · intro hne
    simp only [scanLoop, if_pos hpos, h1, if_pos hne]
  · intro hmagic
    simp only [scanLoop, if_pos hpos, h1, hmagic, h2, Reader.seek]
    rw [if_neg (fun hcon => hcon rfl)]

/-- Witness for C3 amended: prefix `01 02 03 04` is not the magic, so
the scan of an eight-byte file stops with the magic `ValueError` and an
empty block list. -/
theorem scan_prefix_behavior_witness :
    scanLoop 9 ⟨[1, 2, 3, 4, 5, 6, 7, 8], 0⟩ 8 [] = ([], some .incorrectMagic) :=
  (scan_prefix_behavior 8 [1, 2, 3, 4, 5, 6, 7, 8] 0 [] (by decide) (by decide)).1
    (by decide)
